import Mathlib

set_option maxHeartbeats 1000000

/-
Verification of the toolbox_py FST generator (tb2fst.py).

Shallow embedding conventions:
* A Python `dict` is modelled as an association list in insertion order;
  a missing key is appended at the end, as Python dicts do.  All dicts the
  program builds have distinct keys.
* Python strings are Lean `String`s (a structure holding a `List Char`);
  `str.lower()` / `str.upper()` are modelled with `Char.toLower` /
  `Char.toUpper` (the inputs of interest are ASCII).
* Python `sorted` on strings compares code points lexicographically; this is
  modelled by an executable lexicographic comparator on `List Char`.
* `while` loops over string indices are modelled with an explicit fuel that
  strictly bounds the number of iterations, so the definitions stay
  structurally recursive and computable.
-/

namespace Tb2fst

/-- Inner level of `src2tgt2freq`: target token to count, in insertion order. -/
abbrev Inner := List (String × Nat)

/-- Outer level of `src2tgt2freq`: source token to inner table, in insertion order. -/
abbrev Table := List (String × Inner)

/-- Dict lookup on the inner table (first matching key). -/
def lookupInner : Inner → String → Option Nat
  | [], _ => none
  | p :: rest, k => if p.1 = k then some p.2 else lookupInner rest k

/-- Dict lookup on the outer table (first matching key). -/
def lookupT : Table → String → Option Inner
  | [], _ => none
  | e :: rest, k => if e.1 = k then some e.2 else lookupT rest k

/-- The count stored for a `(source, target)` pair, if present. -/
def freqOf (t : Table) (s tg : String) : Option Nat :=
  (lookupT t s).bind (fun i => lookupInner i tg)

/-- The count stored for a `(source, target)` pair, zero when absent. -/
def countIn (t : Table) (s tg : String) : Nat := (freqOf t s tg).getD 0

/-- tb2fst.py lines 148-149 / 203-204: `if not tgt in d: d[tgt]=0` followed by
`d[tgt]+=n`; a missing key is appended at the end of the dict. -/
def bumpInnerBy : Inner → String → Nat → Inner
  | [], tg, n => [(tg, n)]
  | p :: rest, tg, n =>
    if p.1 = tg then (p.1, p.2 + n) :: rest else p :: bumpInnerBy rest tg n

/-- tb2fst.py lines 147-149 / 202-204: ensure the source key exists, then bump
the target count inside it by `n` (`n = 1` in `add`, `n = freq` in `sfst`). -/
def bumpTableBy : Table → String → String → Nat → Table
  | [], s, tg, n => [(s, bumpInnerBy [] tg n)]
  | e :: rest, s, tg, n =>
    if e.1 = s then (e.1, bumpInnerBy e.2 tg n) :: rest else e :: bumpTableBy rest s tg n

/-- tb2fst.py lines 20-36, `SFST_REPLACEMENTS`: the ordered replacement table.
Every key of the Python dict is a single character; Python dicts preserve
insertion order, and the backslash entry comes first. -/
def SFST_REPLACEMENTS : List (Char × String) :=
  [('\\', "\\\\"), ('=', "\\="), ('-', "\\-"), ('|', "\\|"), (',', "\\,"),
   ('.', "\\."), ('(', "\\("), (')', "\\)"), (':', "\\:"), ('?', "\\?"),
   ('&', "\\&"), (' ', "\\ "), ('*', "\\*"), ('[', "\\["), (']', "\\]"),
   ('!', "\\!")]

/-- `tgt.join(string.split(src))` for a one-character separator `src`:
replace every occurrence of the character by the replacement string. -/
def replaceAllChar (l : List Char) (src : Char) (tgt : List Char) : List Char :=
  l.flatMap (fun c => if c = src then tgt else [c])

/-- tb2fst.py lines 38-43, `escape`: apply all replacements in the order they
are stored, each pass replacing every occurrence (the `if src in string` guard
in the source is an optimization with no effect on the result). -/
def escape (s : String) (replacements : List (Char × String)) : String :=
  ⟨replacements.foldl (fun l p => replaceAllChar l p.1 p.2.data) s.data⟩

/-- Python `str.strip()`: drop whitespace from both ends. -/
def pyStrip (l : List Char) : List Char :=
  ((l.dropWhile Char.isWhitespace).reverse.dropWhile Char.isWhitespace).reverse

/-- Python `str.strip()` on a `String`. -/
def trimStr (s : String) : String := ⟨pyStrip s.data⟩

/-- Python `str.lower()` (ASCII range). -/
def lowerStr (s : String) : String := ⟨s.data.map Char.toLower⟩

/-- Python `str.upper()` (ASCII range). -/
def upperStr (s : String) : String := ⟨s.data.map Char.toUpper⟩

/-- `if ignore_case: s = s.lower()`. -/
def lowIf (ic : Bool) (s : String) : String := if ic then lowerStr s else s

/-- Python `string.split(symbol)` for a one-character symbol: cut the string at
every occurrence of the character; `[] ↦ [[]]`, matching `"".split(c) == [""]`. -/
def splitChar (c : Char) : List Char → List (List Char)
  | [] => [[]]
  | a :: rest =>
    if a = c then [] :: splitChar c rest
    else match splitChar c rest with
      | [] => [[a]]
      | f :: fs => (a :: f) :: fs

/-- tb2fst.py lines 45-57, `split`: successively split every fragment on every
splitter symbol (strings with no occurrence are kept whole, which equals
splitting them), then strip each fragment and drop the empty ones. -/
def split (s : String) (splitter_symbols : List Char) : List String :=
  let base := splitter_symbols.foldl
    (fun base symbol =>
      base.flatMap (fun str => if symbol ∈ str then splitChar symbol str else [str]))
    [s.data]
  base.filterMap (fun b =>
    let t := pyStrip b
    if t.length > 0 then some (⟨t⟩ : String) else none)

/-- tb2fst.py lines 142-149, the aggregation step for one aligned pair: the
target segments are joined with the segment separator, split on the splitter
symbols, and each resulting alternative is counted once against the source. -/
def addPair (sep : String) (splitter : List Char) (t : Table) (p : String × List String) : Table :=
  (split (String.intercalate sep p.2) splitter).foldl
    (fun acc tg => bumpTableBy acc p.1 tg 1) t

/-- Aggregation over a whole sequence of aligned pairs (the reader/aligner that
produces the pairs is an external collaborator). -/
def addAll (sep : String) (splitter : List Char) (t : Table)
    (ps : List (String × List String)) : Table :=
  ps.foldl (addPair sep splitter) t

/-- The number of aligned observations of a given `(source, joined target)`
pair in an input sequence. -/
def obsCount (sep : String) (ps : List (String × List String)) (s tg : String) : Nat :=
  ps.countP (fun p => decide (p.1 = s ∧ String.intercalate sep p.2 = tg))

/-- tb2fst.py lines 192-194: `start=0; while(start<len(src) and start<len(tgt)
and src[start]==tgt[start]): start+=1`.  The fuel strictly bounds the number of
iterations and is always sufficient. -/
def preScanFuel : Nat → List Char → List Char → Nat → Nat
  | 0, _, _, s => s
  | fuel + 1, a, b, s =>
    if s < a.length ∧ s < b.length ∧ a.getD s ' ' = b.getD s ' '
    then preScanFuel fuel a b (s + 1) else s

/-- The final value of `start` (length of the scanned common prefix). -/
def preScan (a b : List Char) : Nat := preScanFuel (a.length + 1) a b 0

/-- tb2fst.py lines 195-197: `end=-1; while(-end<len(src) and -end<len(tgt) and
src[end]==tgt[end]): end-=1`, phrased with `s = -end - 1` matched characters:
`src[end] = src[len(src)-(s+1)]`. -/
def sufScanFuel : Nat → List Char → List Char → Nat → Nat
  | 0, _, _, s => s
  | fuel + 1, a, b, s =>
    if s + 1 < a.length ∧ s + 1 < b.length ∧
        a.getD (a.length - (s + 1)) ' ' = b.getD (b.length - (s + 1)) ' '
    then sufScanFuel fuel a b (s + 1) else s

/-- The number of matched suffix characters, `-end - 1` on loop exit. -/
def sufScan (a b : List Char) : Nat := sufScanFuel (a.length + 1) a b 0

/-- tb2fst.py lines 199-200: the slice
`x[max(0,start-w) : min(len(x), len(x)+1+end+w)]` with `end = -(matched+1)`,
so the upper bound is `min(len(x), len(x)-matched+w)` (natural subtraction
models Python's `max(0, ...)` on the lower bound). -/
def sliceStr (x : String) (start matched w : Nat) : String :=
  ⟨(x.data.take (min x.data.length (x.data.length - matched + w))).drop (start - w)⟩

/-- tb2fst.py lines 188-204, the body of the reduction loop for one
`(tgt, freq)` item.  The first component of the state is the Python variable
`src`, which the source code reassigns inside the inner loop (lower-casing,
slicing and stripping it), so it threads across the items of one source key. -/
def reduceStep (ic : Bool) (w : Nat) : (String × Table) → (String × Nat) → (String × Table) :=
  fun st p =>
    let src := lowIf ic st.1
    let tgt := lowIf ic p.1
    if src = tgt then (src, st.2)
    else
      let start := preScan src.data tgt.data
      let matched := sufScan src.data tgt.data
      let src := trimStr (sliceStr src start matched w)
      let tgt := trimStr (sliceStr tgt start matched w)
      if src ≠ "" ∧ tgt ≠ "" then (src, bumpTableBy st.2 src tgt p.2) else (src, st.2)

/-- tb2fst.py lines 180-204: build the reduced table, iterating the outer and
inner dicts in insertion order and threading the mutated `src` variable. -/
def reduceTable (ic : Bool) (w : Nat) (t : Table) : Table :=
  t.foldl (fun acc e => (e.2.foldl (reduceStep ic w) (e.1, acc)).2) []

/-- Executable lexicographic (code-point) strict order on character lists,
modelling Python's string comparison. -/
def strLtB : List Char → List Char → Bool
  | [], [] => false
  | [], _ :: _ => true
  | _ :: _, [] => false
  | a :: as, b :: bs => if a < b then true else if b < a then false else strLtB as bs

/-- `s <= t` on strings, as Python's `sorted` compares keys. -/
def keyLe (s t : String) : Prop := strLtB s.data t.data = true ∨ s = t

instance : DecidableRel keyLe := fun _ _ => inferInstanceAs (Decidable (_ ∨ _))

/-- Python tuple comparison on `(target, freq)` items, as `sorted(d.items())`
compares them: lexicographic on the pair. -/
def pairLe (a b : String × Nat) : Prop :=
  strLtB a.1.data b.1.data = true ∨ (a.1 = b.1 ∧ a.2 ≤ b.2)

instance : DecidableRel pairLe := fun _ _ => inferInstanceAs (Decidable (_ ∨ _))

/-- `sorted(src2tgt2freq)`: the keys of the table in sorted order. -/
def sortedKeys (t : Table) : List String := List.insertionSort keyLe (t.map Prod.fst)

/-- `src2tgt2freq[src]` for a key obtained from the dict itself (the default
`[]` is never taken, since the key is present). -/
def innerOf (t : Table) (k : String) : Inner := (lookupT t k).getD []

/-- The table as the emission loop of tb2fst.py lines 209-211 traverses it:
source keys in sorted order, each with `sorted(src2tgt2freq[src].items())`. -/
def selectedSorted (t : Table) : Table :=
  (sortedKeys t).map (fun k => (k, List.insertionSort pairLe (innerOf t k)))

/-- The mutable state of the emission loop: the two alphabet accumulators
(Python sets, kept here as append-only lists of their elements, serialized
later through sorted de-duplication) and the structured content of `vals`
(escaped source, escaped target, frequency of each emitted rule). -/
structure EmitState where
  salph : List Char
  talph : List Char
  vals : List (String × String × Nat)
deriving DecidableEq

/-- tb2fst.py line 219: `not skip_identicals or (not ignore_case and src!=tgt)
or (ignore_case and src.lower()!=tgt.lower())`, applied to the escaped pair. -/
def identCond (ic si : Bool) (src tgt : String) : Bool :=
  !si || (!ic && src != tgt) || (ic && lowerStr src != lowerStr tgt)

/-- tb2fst.py lines 211-220, the emission body for one `(tgt, freq)` item.
The first state component is the Python variable `src`, reassigned to its
escaped form inside the inner loop (so it threads across the items of one
source key); the frequency-cutoff test `freq>freq_cutoff` is strict. -/
def emitInner (c : Int) (ic si : Bool) :
    (String × EmitState) → (String × Nat) → (String × EmitState) :=
  fun st p =>
    if (p.2 : Int) > c then
      let st1 : EmitState := { st.2 with talph := st.2.talph ++ p.1.data }
      let src := escape st.1 SFST_REPLACEMENTS
      let tgt := escape p.1 SFST_REPLACEMENTS
      if '\\' ∈ src.data then (src, st1)
      else if identCond ic si src tgt
      then (src, { st1 with vals := st1.vals ++ [(src, tgt, p.2)] })
      else (src, st1)
    else st

/-- tb2fst.py lines 209-220, the emission body for one source key:
`salph.update(src)` and then the inner loop over the sorted items. -/
def emitEntry (c : Int) (ic si : Bool) (st : EmitState) (e : String × Inner) : EmitState :=
  (e.2.foldl (emitInner c ic si) (e.1, { st with salph := st.salph ++ e.1.data })).2

/-- The full emission loop over a table already arranged in iteration order. -/
def emitTable (sel : Table) (c : Int) (ic si : Bool) : EmitState :=
  sel.foldl (emitEntry c ic si) ⟨[], [], []⟩

/-- tb2fst.py lines 180-182: the table the emission works on — the reduced
table when `reduction_window >= 0`, the frequency table itself otherwise. -/
def select (t : Table) (w : Int) (ic : Bool) : Table :=
  if 0 ≤ w then reduceTable ic w.toNat t else t

/-- tb2fst.py line 184: with a reduction window, `salph` is pre-loaded with
the characters of every original (unreduced) source key. -/
def preSalph (t : Table) (w : Int) : List Char :=
  if 0 ≤ w then t.flatMap (fun e => e.1.data) else []

/-- tb2fst.py line 186: with a reduction window, `talph` is pre-loaded with
the characters of every original (unreduced) target token. -/
def preTalph (t : Table) (w : Int) : List Char :=
  if 0 ≤ w then t.flatMap (fun e => e.2.flatMap (fun p => p.1.data)) else []

/-- The structured rule list produced by `sfst` on a given frequency table. -/
def emittedRules (t : Table) (c : Int) (ic si : Bool) (w : Int) :
    List (String × String × Nat) :=
  (emitTable (selectedSorted (select t w ic)) c ic si).vals

/-- All characters accumulated into the `salph` set by `sfst`. -/
def salphChars (t : Table) (c : Int) (ic si : Bool) (w : Int) : List Char :=
  preSalph t w ++ (emitTable (selectedSorted (select t w ic)) c ic si).salph

/-- All characters accumulated into the `talph` set by `sfst`. -/
def talphChars (t : Table) (c : Int) (ic si : Bool) (w : Int) : List Char :=
  preTalph t w ++ (emitTable (selectedSorted (select t w ic)) c ic si).talph

/-- `"".join(sorted(set(chars)))`: sorted de-duplication of a character
accumulator (only the membership of the accumulator matters). -/
def sortedDedup (l : List Char) : List Char :=
  List.insertionSort (fun a b => a ≤ b) l.dedup

/-- tb2fst.py lines 243-244: `"".join(salph.split("-"))+"-"` when a hyphen is
present — remove every hyphen and append one at the end. -/
def hyphenFix (l : List Char) : List Char :=
  if '-' ∈ l then (l.filter (fun ch => decide (ch ≠ '-'))) ++ ['-'] else l

/-- tb2fst.py lines 206-207: the rule-set name — upper-case the two markers
joined by `_to_`, strip characters outside `[A-Z0-9_]`, frame with `$`. -/
def nameOf (source target : String) : String :=
  "$" ++ (⟨((source ++ "_to_" ++ target).data.map Char.toUpper).filter
    (fun ch => decide (('A' ≤ ch ∧ ch ≤ 'Z') ∨ ('0' ≤ ch ∧ ch ≤ '9') ∨ ch = '_'))⟩ : String) ++ "$"

/-- tb2fst.py line 220: the text of one rule,
`"{"+src+"}:{"+tgt+"} % freq "+str(freq)`. -/
def ruleText (r : String × String × Nat) : String :=
  "\x7b" ++ r.1 ++ "\x7d:\x7b" ++ r.2.1 ++ "\x7d % freq " ++ toString r.2.2

/-- tb2fst.py lines 221-265: serialization after the table has been arranged
in iteration order (`sel`) and the pre-loaded alphabet contents fixed.
Raises the empty-grammar error when no rule survived filtering; otherwise
builds the grammar text exactly as the f-string at lines 256-265 does. -/
def sfstFromParts (source target : String) (sel : Table) (preS preT : List Char)
    (c : Int) (ic si : Bool) : Except String String :=
  let st := emitTable sel c ic si
  if st.vals = [] then
    Except.error ("empty grammar with frequency cutoff " ++ toString c)
  else
    let valsStr := String.intercalate " \\\n\t| " (st.vals.map ruleText)
    let identRule := if si then "| .*" else ""
    let salphL := sortedDedup (preS ++ st.salph)
    let talphL := sortedDedup (preT ++ st.talph)
    let alphL := sortedDedup (salphL ++ talphL)
    let salphS : String := ⟨hyphenFix salphL⟩
    let talphS : String := ⟨hyphenFix talphL⟩
    let casedS : String :=
      ⟨sortedDedup ((alphL.filter (fun ch => decide (Char.toLower ch ≠ Char.toUpper ch))).map
        Char.toLower)⟩
    let caseRule :=
      if ic then
        "[" ++ lowerStr casedS ++ upperStr casedS ++ "]:[" ++ upperStr casedS ++
          lowerStr casedS ++ "]"
      else ""
    Except.ok ("\n#SALPH#=" ++ escape salphS SFST_REPLACEMENTS ++ "\n\n#TALPH#=" ++
      escape talphS SFST_REPLACEMENTS ++ "\n\nALPHABET=[#SALPH#] [#TALPH#] " ++ caseRule ++
      "\n\n" ++ nameOf source target ++ "=" ++ valsStr ++ "\n\n.+ || [#SALPH#]+ || " ++
      nameOf source target ++ " " ++ identRule ++ " || [#TALPH#]+\n")

/-- tb2fst.py lines 156-265, `FSTGenerator.sfst` on an output stream:
`source`/`target` are the generator's markers, `t` its frequency table. -/
def sfst (source target : String) (t : Table) (c : Int) (ic si : Bool) (w : Int) :
    Except String String :=
  sfstFromParts source target (selectedSorted (select t w ic)) (preSalph t w)
    (preTalph t w) c ic si

/-- The characters the escaper treats as reserved: the keys of the ordered
replacement table. -/
def reservedChars : List Char := SFST_REPLACEMENTS.map Prod.fst

/-- Whether a character is reserved. -/
def reservedB (c : Char) : Bool := decide (c ∈ reservedChars)

/-- Whether a token contains any reserved character. -/
def hasReserved (s : String) : Bool := s.data.any reservedB

/-- Modelled from the spec (the reference form behind claim C6): a reserved
character is emitted with exactly one preceding backslash, any other character
unchanged. -/
def escUnit (c : Char) : List Char := if reservedB c then ['\\', c] else [c]

/-- Modelled from the spec (the reference form behind claim C6): pointwise
escaping of a token, each reserved character escaped exactly once. -/
def canonicalEscape (s : String) : String := ⟨s.data.flatMap escUnit⟩

/-- A character list is well escaped when every reserved character in it is
consumed as the second half of a backslash pair. -/
def wellEscaped : List Char → Bool
  | [] => true
  | c :: rest =>
    if c = '\\' then
      match rest with
      | [] => false
      | _ :: r2 => wellEscaped r2
    else !reservedB c && wellEscaped rest

/-- What the chain of replacement passes does to one original character. -/
def escFun : List (Char × String) → Char → List Char
  | [], c => [c]
  | p :: rest, c => if c = p.1 then p.2.data.flatMap (escFun rest) else escFun rest c

theorem foldl_replace (repl : List (Char × String)) (l : List Char) :
    repl.foldl (fun acc p => replaceAllChar acc p.1 p.2.data) l = l.flatMap (escFun repl) := by
  induction repl generalizing l with
  | nil => simp [escFun]
  | cons p rest ih =>
    simp only [List.foldl_cons]
    rw [ih, replaceAllChar, List.flatMap_assoc]
    refine List.flatMap_congr (fun c _ => ?_)
    by_cases hc : c = p.1 <;> simp [escFun, hc]

theorem escFun_not_key (repl : List (Char × String)) (c : Char)
    (h : c ∉ repl.map Prod.fst) : escFun repl c = [c] := by
  induction repl with
  | nil => rfl
  | cons p rest ih =>
    simp only [List.map_cons, List.mem_cons] at h
    push_neg at h
    simp [escFun, h.1, ih h.2]

theorem escFun_eval (c : Char) : escFun SFST_REPLACEMENTS c = escUnit c := by
  by_cases h1 : c = '\\'
  · subst h1; decide
  by_cases h2 : c = '='
  · subst h2; decide
  by_cases h3 : c = '-'
  · subst h3; decide
  by_cases h4 : c = '|'
  · subst h4; decide
  by_cases h5 : c = ','
  · subst h5; decide
  by_cases h6 : c = '.'
  · subst h6; decide
  by_cases h7 : c = '('
  · subst h7; decide
  by_cases h8 : c = ')'
  · subst h8; decide
  by_cases h9 : c = ':'
  · subst h9; decide
  by_cases h10 : c = '?'
  · subst h10; decide
  by_cases h11 : c = '&'
  · subst h11; decide
  by_cases h12 : c = ' '
  · subst h12; decide
  by_cases h13 : c = '*'
  · subst h13; decide
  by_cases h14 : c = '['
  · subst h14; decide
  by_cases h15 : c = ']'
  · subst h15; decide
  by_cases h16 : c = '!'
  · subst h16; decide
  have hk : c ∉ SFST_REPLACEMENTS.map Prod.fst := by
    simp only [SFST_REPLACEMENTS, List.map_cons, List.map_nil, List.mem_cons,
      List.not_mem_nil, or_false]
    tauto
  have hres : reservedB c = false := by
    simp only [reservedB, decide_eq_false_iff_not, reservedChars]
    exact hk
  rw [escFun_not_key _ _ hk, escUnit, hres]
  simp

theorem escape_eq_canonical (s : String) :
    escape s SFST_REPLACEMENTS = canonicalEscape s := by
  unfold escape canonicalEscape
  rw [foldl_replace]
  congr 1
  exact List.flatMap_congr (fun c _ => escFun_eval c)

theorem escape_of_clean (s : String) (h : hasReserved s = false) :
    escape s SFST_REPLACEMENTS = s := by
  rw [escape_eq_canonical, canonicalEscape]
  have hall : ∀ c ∈ s.data, reservedB c = false := by
    intro c hc
    have h' : s.data.any reservedB = false := h
    simpa using List.any_eq_false.mp h' c hc
  apply String.ext
  show s.data.flatMap escUnit = s.data
  calc s.data.flatMap escUnit
      = s.data.flatMap (fun c => [c]) :=
        List.flatMap_congr (fun c hc => by simp [escUnit, hall c hc])
    _ = s.data := by simp

theorem bslash_mem_escape_iff (s : String) :
    '\\' ∈ (escape s SFST_REPLACEMENTS).data ↔ hasReserved s = true := by
  rw [escape_eq_canonical, canonicalEscape]
  show '\\' ∈ s.data.flatMap escUnit ↔ _
  rw [List.mem_flatMap, hasReserved, List.any_eq_true]
  constructor
  · rintro ⟨c, hc, hmem⟩
    cases hb : reservedB c with
    | true => exact ⟨c, hc, hb⟩
    | false =>
      simp only [escUnit, hb, Bool.false_eq_true, if_false, List.mem_singleton] at hmem
      subst hmem
      exact absurd hb (by decide)
  · rintro ⟨c, hc, hr⟩
    exact ⟨c, hc, by simp [escUnit, hr]⟩

theorem hasReserved_escape (s : String) (h : hasReserved s = true) :
    hasReserved (escape s SFST_REPLACEMENTS) = true := by
  have hb : '\\' ∈ (escape s SFST_REPLACEMENTS).data := (bslash_mem_escape_iff s).mpr h
  simp only [hasReserved, List.any_eq_true]
  exact ⟨'\\', hb, by decide⟩

theorem clean_no_bslash (s : String) (h : hasReserved s = false) :
    '\\' ∉ (escape s SFST_REPLACEMENTS).data := by
  intro hmem
  rw [bslash_mem_escape_iff s, h] at hmem
  exact absurd hmem (by decide)

theorem wellEscaped_pair (c : Char) (r : List Char) :
    wellEscaped ('\\' :: c :: r) = wellEscaped r := by
  conv_lhs => rw [wellEscaped.eq_def]
  simp

theorem wellEscaped_plain (c : Char) (r : List Char) (h : c ≠ '\\') :
    wellEscaped (c :: r) = (!reservedB c && wellEscaped r) := by
  conv_lhs => rw [wellEscaped.eq_def]
  simp only [if_neg h]

theorem wellEscaped_flatMap (l : List Char) : wellEscaped (l.flatMap escUnit) = true := by
  induction l with
  | nil => rfl
  | cons c rest ih =>
    rw [List.flatMap_cons]
    by_cases hr : reservedB c = true
    · simp only [escUnit, hr, if_pos]
      show wellEscaped ('\\' :: c :: rest.flatMap escUnit) = true
      rw [wellEscaped_pair]
      exact ih
    · simp only [Bool.not_eq_true] at hr
      simp only [escUnit, hr, Bool.false_eq_true, if_false]
      show wellEscaped (c :: rest.flatMap escUnit) = true
      have hcb : c ≠ '\\' := by
        intro h
        subst h
        exact absurd hr (by decide)
      rw [wellEscaped_plain c _ hcb, hr, ih]
      rfl

theorem wellEscaped_escape (s : String) :
    wellEscaped (escape s SFST_REPLACEMENTS).data = true := by
  rw [escape_eq_canonical]
  exact wellEscaped_flatMap s.data

theorem strLtB_asymm : ∀ a b : List Char, strLtB a b = true → strLtB b a = false
  | [], [], h => by simp [strLtB] at h
  | [], _ :: _, _ => rfl
  | _ :: _, [], h => by simp [strLtB] at h
  | a :: as, b :: bs, h => by
    simp only [strLtB] at h ⊢
    by_cases hab : a < b
    · rw [if_neg (asymm hab), if_pos hab]
    · rw [if_neg hab] at h
      by_cases hba : b < a
      · rw [if_pos hba] at h
        exact absurd h (by simp)
      · rw [if_neg hba] at h
        rw [if_neg hba, if_neg hab]
        exact strLtB_asymm as bs h

theorem strLtB_trans : ∀ a b c : List Char,
    strLtB a b = true → strLtB b c = true → strLtB a c = true
  | [], [], _, h, _ => by simp [strLtB] at h
  | [], _ :: _, [], _, h => by simp [strLtB] at h
  | [], _ :: _, _ :: _, _, _ => rfl
  | _ :: _, [], _, h, _ => by simp [strLtB] at h
  | _ :: _, _ :: _, [], _, h => by simp [strLtB] at h
  | a :: as, b :: bs, c :: cs, h1, h2 => by
    simp only [strLtB] at h1 h2 ⊢
    by_cases hab : a < b
    · by_cases hbc : b < c
      · rw [if_pos (lt_trans hab hbc)]
      · rw [if_neg hbc] at h2
        by_cases hcb : c < b
        · rw [if_pos hcb] at h2
          exact absurd h2 (by simp)
        · have : b = c := le_antisymm (not_lt.mp hcb) (not_lt.mp hbc)
          subst this
          rw [if_pos hab]
    · rw [if_neg hab] at h1
      by_cases hba : b < a
      · rw [if_pos hba] at h1
        exact absurd h1 (by simp)
      · have : a = b := le_antisymm (not_lt.mp hba) (not_lt.mp hab)
        subst this
        rw [if_neg hab] at h1
        by_cases hbc : a < c
        · rw [if_pos hbc]
        · rw [if_neg hbc] at h2 ⊢
          by_cases hcb : c < a
          · rw [if_pos hcb] at h2
            exact absurd h2 (by simp)
          · rw [if_neg hcb] at h2 ⊢
            exact strLtB_trans as bs cs h1 h2

theorem strLtB_connex : ∀ a b : List Char,
    strLtB a b = false → strLtB b a = false → a = b
  | [], [], _, _ => rfl
  | [], _ :: _, h, _ => by simp [strLtB] at h
  | _ :: _, [], _, h => by simp [strLtB] at h
  | a :: as, b :: bs, h1, h2 => by
    simp only [strLtB] at h1 h2
    by_cases hab : a < b
    · rw [if_pos hab] at h1
      exact absurd h1 (by simp)
    · rw [if_neg hab] at h1
      by_cases hba : b < a
      · rw [if_pos hba] at h2
        exact absurd h2 (by simp)
      · have hEq : a = b := le_antisymm (not_lt.mp hba) (not_lt.mp hab)
        subst hEq
        rw [if_neg hab] at h1 h2
        rw [if_neg hab] at h2
        rw [strLtB_connex as bs h1 h2]

theorem strLtB_irrefl (a : List Char) : strLtB a a = false := by
  cases h : strLtB a a
  · rfl
  · have h2 := strLtB_asymm a a h
    rw [h] at h2
    exact absurd h2 (by simp)

instance : IsTotal String keyLe := by
  constructor
  intro a b
  cases h1 : strLtB a.data b.data
  · cases h2 : strLtB b.data a.data
    · exact Or.inl (Or.inr (String.ext (strLtB_connex _ _ h1 h2)))
    · exact Or.inr (Or.inl h2)
  · exact Or.inl (Or.inl h1)

instance : IsTrans String keyLe := by
  constructor
  rintro a b c (h1 | rfl) (h2 | rfl)
  · exact Or.inl (strLtB_trans _ _ _ h1 h2)
  · exact Or.inl h1
  · exact Or.inl h2
  · exact Or.inr rfl

instance : IsAntisymm String keyLe := by
  constructor
  rintro a b (h1 | rfl) (h2 | h2)
  · have := strLtB_asymm _ _ h1
    rw [h2] at this
    exact absurd this (by simp)
  · exact h2.symm
  · rfl
  · rfl

instance : IsTotal (String × Nat) pairLe := by
  constructor
  intro a b
  cases h1 : strLtB a.1.data b.1.data
  · cases h2 : strLtB b.1.data a.1.data
    · have hEq : a.1 = b.1 := String.ext (strLtB_connex _ _ h1 h2)
      rcases Nat.le_total a.2 b.2 with h | h
      · exact Or.inl (Or.inr ⟨hEq, h⟩)
      · exact Or.inr (Or.inr ⟨hEq.symm, h⟩)
    · exact Or.inr (Or.inl h2)
  · exact Or.inl (Or.inl h1)

instance : IsTrans (String × Nat) pairLe := by
  constructor
  rintro a b c (h1 | ⟨hEq1, hle1⟩) (h2 | ⟨hEq2, hle2⟩)
  · exact Or.inl (strLtB_trans _ _ _ h1 h2)
  · exact Or.inl (hEq2 ▸ h1)
  · exact Or.inl (hEq1 ▸ h2)
  · exact Or.inr ⟨hEq1.trans hEq2, Nat.le_trans hle1 hle2⟩

instance : IsAntisymm (String × Nat) pairLe := by
  constructor
  rintro a b (h1 | ⟨hEq1, hle1⟩) (h2 | ⟨hEq2, hle2⟩)
  · have := strLtB_asymm _ _ h1
    rw [h2] at this
    exact absurd this (by simp)
  · rw [hEq2] at h1
    rw [strLtB_irrefl] at h1
    exact absurd h1 (by simp)
  · rw [hEq1] at h2
    rw [strLtB_irrefl] at h2
    exact absurd h2 (by simp)
  · exact Prod.ext hEq1 (Nat.le_antisymm hle1 hle2)

theorem lookupT_of_mem_keys {t : Table} {k : String} (h : k ∈ t.map Prod.fst) :
    ∃ v, lookupT t k = some v := by
  induction t with
  | nil => simp at h
  | cons e rest ih =>
    by_cases he : e.1 = k
    · exact ⟨e.2, by simp [lookupT, he]⟩
    · simp only [List.map_cons, List.mem_cons] at h
      rcases h with h | h
      · exact absurd h.symm he
      · obtain ⟨v, hv⟩ := ih h
        exact ⟨v, by simp [lookupT, he, hv]⟩

/-- The rule the emission produces for one `(tgt, freq)` item of a source key
whose escaped form is backslash-free. -/
def ruleFor (c : Int) (ic si : Bool) (src : String) (p : String × Nat) :
    Option (String × String × Nat) :=
  if (p.2 : Int) > c ∧ identCond ic si src (escape p.1 SFST_REPLACEMENTS) = true
  then some (src, escape p.1 SFST_REPLACEMENTS, p.2) else none

/-- The characters one source key's items contribute to `talph`: every
character of every target whose count beats the cutoff. -/
def talphFor (c : Int) (inner : Inner) : List Char :=
  inner.flatMap (fun p => if (p.2 : Int) > c then p.1.data else [])

/-- The rules one source key contributes: none at all when the key contains a
reserved character (its escaped form then contains a backslash and every item
is rejected), the surviving items otherwise. -/
def valsFor (c : Int) (ic si : Bool) (src : String) (inner : Inner) :
    List (String × String × Nat) :=
  if hasReserved src = true then [] else inner.filterMap (ruleFor c ic si src)

theorem emitInner_fold_clean (c : Int) (ic si : Bool) (inner : Inner) :
    ∀ (src : String) (st : EmitState), hasReserved src = false →
    inner.foldl (emitInner c ic si) (src, st) =
      (src, ⟨st.salph, st.talph ++ talphFor c inner,
        st.vals ++ inner.filterMap (ruleFor c ic si src)⟩) := by
  induction inner with
  | nil => intro src st _; simp [talphFor]
  | cons p rest ih =>
    intro src st hclean
    rw [List.foldl_cons]
    by_cases hf : (p.2 : Int) > c
    · have hesc : escape src SFST_REPLACEMENTS = src := escape_of_clean src hclean
      have hnb : '\\' ∉ src.data := by
        have := clean_no_bslash src hclean
        rwa [hesc] at this
      by_cases hid : identCond ic si src (escape p.1 SFST_REPLACEMENTS) = true
      · have hstep : emitInner c ic si (src, st) p =
            (src, ⟨st.salph, st.talph ++ p.1.data,
              st.vals ++ [(src, escape p.1 SFST_REPLACEMENTS, p.2)]⟩) := by
          simp only [emitInner, if_pos hf, hesc]
          rw [if_neg hnb, if_pos hid]
        rw [hstep, ih src _ hclean]
        simp [talphFor, List.filterMap_cons, ruleFor, if_pos hf, hid,
          List.append_assoc]
      · have hstep : emitInner c ic si (src, st) p =
            (src, ⟨st.salph, st.talph ++ p.1.data, st.vals⟩) := by
          simp only [emitInner, if_pos hf, hesc]
          rw [if_neg hnb, if_neg hid]
        rw [hstep, ih src _ hclean]
        simp only [talphFor, List.flatMap_cons, if_pos hf, List.append_assoc,
          List.filterMap_cons, ruleFor]
        rw [if_neg (by rintro ⟨h1, h2⟩; exact hid h2)]
    · have hstep : emitInner c ic si (src, st) p = (src, st) := by
        simp only [emitInner, if_neg hf]
      rw [hstep, ih src st hclean]
      simp only [talphFor, List.flatMap_cons, if_neg hf, List.nil_append,
        List.filterMap_cons, ruleFor]
      rw [if_neg (by rintro ⟨h1, h2⟩; exact hf h1)]

theorem emitInner_fold_dirty (c : Int) (ic si : Bool) (inner : Inner) :
    ∀ (src : String) (st : EmitState), hasReserved src = true →
    ∃ src', hasReserved src' = true ∧
      inner.foldl (emitInner c ic si) (src, st) =
        (src', ⟨st.salph, st.talph ++ talphFor c inner, st.vals⟩) := by
  induction inner with
  | nil => intro src st h; exact ⟨src, h, by simp [talphFor]⟩
  | cons p rest ih =>
    intro src st hdirty
    rw [List.foldl_cons]
    by_cases hf : (p.2 : Int) > c
    · have hb : '\\' ∈ (escape src SFST_REPLACEMENTS).data :=
        (bslash_mem_escape_iff src).mpr hdirty
      have hstep : emitInner c ic si (src, st) p =
          (escape src SFST_REPLACEMENTS, ⟨st.salph, st.talph ++ p.1.data, st.vals⟩) := by
        simp only [emitInner, if_pos hf]
        rw [if_pos hb]
      rw [hstep]
      obtain ⟨src', h1, h2⟩ := ih (escape src SFST_REPLACEMENTS)
        ⟨st.salph, st.talph ++ p.1.data, st.vals⟩ (hasReserved_escape src hdirty)
      refine ⟨src', h1, ?_⟩
      rw [h2]
      simp [talphFor, if_pos hf, List.append_assoc]
    · have hstep : emitInner c ic si (src, st) p = (src, st) := by
        simp only [emitInner, if_neg hf]
      rw [hstep]
      obtain ⟨src', h1, h2⟩ := ih src st hdirty
      refine ⟨src', h1, ?_⟩
      rw [h2]
      simp [talphFor, if_neg hf]

theorem emitEntry_char (c : Int) (ic si : Bool) (st : EmitState) (e : String × Inner) :
    emitEntry c ic si st e =
      ⟨st.salph ++ e.1.data, st.talph ++ talphFor c e.2,
        st.vals ++ valsFor c ic si e.1 e.2⟩ := by
  unfold emitEntry
  cases hres : hasReserved e.1 with
  | false =>
    rw [emitInner_fold_clean c ic si e.2 e.1 _ hres]
    simp [valsFor, hres]
  | true =>
    obtain ⟨src', _, h2⟩ := emitInner_fold_dirty c ic si e.2 e.1
      { st with salph := st.salph ++ e.1.data } hres
    rw [h2]
    simp [valsFor, hres]

theorem emitTable_foldl_char (c : Int) (ic si : Bool) (sel : Table) :
    ∀ st : EmitState, sel.foldl (emitEntry c ic si) st =
      ⟨st.salph ++ sel.flatMap (fun e => e.1.data),
        st.talph ++ sel.flatMap (fun e => talphFor c e.2),
        st.vals ++ sel.flatMap (fun e => valsFor c ic si e.1 e.2)⟩ := by
  induction sel with
  | nil => intro st; simp
  | cons e rest ih =>
    intro st
    rw [List.foldl_cons, emitEntry_char, ih]
    simp [List.append_assoc]

theorem emitTable_char (c : Int) (ic si : Bool) (sel : Table) :
    emitTable sel c ic si =
      ⟨sel.flatMap (fun e => e.1.data), sel.flatMap (fun e => talphFor c e.2),
        sel.flatMap (fun e => valsFor c ic si e.1 e.2)⟩ := by
  unfold emitTable
  rw [emitTable_foldl_char]
  rfl

/-- Two inner dicts hold the same target-to-count mapping when one is a
permutation (re-insertion-ordering) of the other. -/
def innerPermOpt : Option Inner → Option Inner → Prop
  | none, none => True
  | some a, some b => List.Perm a b
  | _, _ => False

instance : ∀ o1 o2 : Option Inner, Decidable (innerPermOpt o1 o2)
  | none, none => isTrue trivial
  | none, some _ => isFalse (fun h => h)
  | some _, none => isFalse (fun h => h)
  | some a, some b => inferInstanceAs (Decidable (List.Perm a b))

/-- Two tables are equal as nested mappings: same key sets (up to insertion
order) and, per key, the same inner dict up to insertion order. -/
def TableEquiv (t1 t2 : Table) : Prop :=
  List.Perm (t1.map Prod.fst) (t2.map Prod.fst) ∧
    ∀ k ∈ t1.map Prod.fst, innerPermOpt (lookupT t1 k) (lookupT t2 k)

instance (t1 t2 : Table) : Decidable (TableEquiv t1 t2) :=
  inferInstanceAs (Decidable (_ ∧ _))

theorem sortedKeys_eq_of_perm {t1 t2 : Table}
    (h : List.Perm (t1.map Prod.fst) (t2.map Prod.fst)) :
    sortedKeys t1 = sortedKeys t2 := by
  refine List.eq_of_perm_of_sorted ?_ (List.sorted_insertionSort keyLe _)
    (List.sorted_insertionSort keyLe _)
  exact ((List.perm_insertionSort keyLe _).trans h).trans
    (List.perm_insertionSort keyLe _).symm

theorem selectedSorted_eq_of_equiv {t1 t2 : Table} (h : TableEquiv t1 t2) :
    selectedSorted t1 = selectedSorted t2 := by
  obtain ⟨hperm, hinner⟩ := h
  unfold selectedSorted
  rw [sortedKeys_eq_of_perm hperm]
  refine List.map_congr_left (fun k hk => ?_)
  have hk1 : k ∈ t1.map Prod.fst := by
    have := (List.perm_insertionSort keyLe (t2.map Prod.fst)).mem_iff.mp
      (by rwa [← sortedKeys_eq_of_perm hperm] at hk)
    exact hperm.mem_iff.mpr this
  obtain ⟨v1, hv1⟩ := lookupT_of_mem_keys hk1
  have hip := hinner k hk1
  rw [hv1] at hip
  cases hv2 : lookupT t2 k with
  | none => rw [hv2] at hip; exact absurd hip (by simp [innerPermOpt])
  | some v2 =>
    rw [hv2] at hip
    have hp : List.Perm v1 v2 := hip
    have : List.insertionSort pairLe v1 = List.insertionSort pairLe v2 := by
      refine List.eq_of_perm_of_sorted ?_ (List.sorted_insertionSort pairLe _)
        (List.sorted_insertionSort pairLe _)
      exact ((List.perm_insertionSort pairLe _).trans hp).trans
        (List.perm_insertionSort pairLe _).symm
    rw [innerOf, innerOf, hv1, hv2]
    simpa using this

/-- Prepend a character to the first fragment (the no-separator branch of a
character split). -/
def consHead (a : Char) : List (List Char) → List (List Char)
  | [] => [[a]]
  | f :: fs => (a :: f) :: fs

theorem splitChar_cons (c a : Char) (rest : List Char) :
    splitChar c (a :: rest) =
      if a = c then [] :: splitChar c rest else consHead a (splitChar c rest) := by
  by_cases h : a = c
  · simp [splitChar, h]
  · simp only [splitChar, if_neg h]
    rcases h2 : splitChar c rest with _ | ⟨f, fs⟩ <;> simp [consHead]

theorem consHead_ne_nil (a : Char) (X : List (List Char)) : consHead a X ≠ [] := by
  cases X <;> simp [consHead]

theorem splitChar_ne_nil (c : Char) (l : List Char) : splitChar c l ≠ [] := by
  induction l with
  | nil => simp [splitChar]
  | cons a rest ih =>
    rw [splitChar_cons]
    by_cases h : a = c
    · simp [h]
    · simp only [if_neg h]
      exact consHead_ne_nil a _

theorem not_mem_splitChar (c : Char) (l : List Char) : ∀ f ∈ splitChar c l, c ∉ f := by
  induction l with
  | nil =>
    intro f hf
    simp only [splitChar, List.mem_singleton] at hf
    simp [hf]
  | cons a rest ih =>
    intro f hf
    rw [splitChar_cons] at hf
    by_cases h : a = c
    · rw [if_pos h, List.mem_cons] at hf
      rcases hf with rfl | hf
      · simp
      · exact ih f hf
    · rw [if_neg h] at hf
      rcases h2 : splitChar c rest with _ | ⟨g, gs⟩
      · exact absurd h2 (splitChar_ne_nil c rest)
      · rw [h2, consHead, List.mem_cons] at hf
        rcases hf with rfl | hf
        · intro hmem
          rcases List.mem_cons.mp hmem with rfl | hmem
          · exact h rfl
          · exact ih g (h2 ▸ List.mem_cons_self g gs) hmem
        · exact ih f (h2 ▸ List.mem_cons_of_mem g hf)

theorem splitChar_of_not_mem (c : Char) (l : List Char) (h : c ∉ l) :
    splitChar c l = [l] := by
  induction l with
  | nil => rfl
  | cons a rest ih =>
    rw [splitChar_cons]
    have ha : a ≠ c := fun hEq => h (hEq ▸ List.mem_cons_self a rest)
    rw [if_neg ha, ih (fun hm => h (List.mem_cons_of_mem a hm))]
    rfl

/-- Character split driven by a predicate: cut at every character satisfying
`p` (used to show that successive single-character splits only depend on the
set of splitter symbols). -/
def splitPred (p : Char → Bool) : List Char → List (List Char)
  | [] => [[]]
  | a :: rest => if p a then [] :: splitPred p rest else consHead a (splitPred p rest)

theorem splitPred_false (l : List Char) : splitPred (fun _ => false) l = [l] := by
  induction l with
  | nil => rfl
  | cons a rest ih => simp [splitPred, ih, consHead]

theorem consHead_append (a : Char) (X Y : List (List Char)) (h : X ≠ []) :
    consHead a X ++ Y = consHead a (X ++ Y) := by
  cases X with
  | nil => exact absurd rfl h
  | cons f fs => simp [consHead]

theorem splitChar_eq_splitPred (c : Char) (l : List Char) :
    splitChar c l = splitPred (fun x => decide (x = c)) l := by
  induction l with
  | nil => rfl
  | cons a rest ih =>
    rw [splitChar_cons, splitPred]
    by_cases h : a = c <;> simp [h, ih]

theorem splitPred_ne_nil (p : Char → Bool) (l : List Char) :
    splitPred p l ≠ [] := by
  induction l with
  | nil => simp [splitPred]
  | cons a rest ih =>
    rw [splitPred]
    by_cases h : p a = true
    · simp [h]
    · simp only [if_neg h]
      exact consHead_ne_nil a _

theorem splitPred_flatMap (p : Char → Bool) (c : Char) (l : List Char) :
    (splitPred p l).flatMap (splitChar c) =
      splitPred (fun x => p x || decide (x = c)) l := by
  induction l with
  | nil =>
    show [[]].flatMap (splitChar c) = [[]]
    simp [splitChar]
  | cons a rest ih =>
    cases hpa : p a
    · by_cases hac : a = c
      · subst hac
        rw [splitPred, if_neg (by simp [hpa])]
        rcases hL : splitPred p rest with _ | ⟨f, fs⟩
        · exact absurd hL (splitPred_ne_nil p rest)
        · rw [consHead]
          rw [List.flatMap_cons]
          rw [splitChar_cons, if_pos rfl]
          have hR : splitPred (fun x => p x || decide (x = a)) (a :: rest) =
              [] :: splitPred (fun x => p x || decide (x = a)) rest := by
            rw [splitPred, if_pos (by simp [hpa])]
          rw [hR, ← ih, hL, List.flatMap_cons]
          simp
      · rw [splitPred, if_neg (by simp [hpa])]
        rcases hL : splitPred p rest with _ | ⟨f, fs⟩
        · exact absurd hL (splitPred_ne_nil p rest)
        · rw [consHead, List.flatMap_cons, splitChar_cons, if_neg hac]
          have hR : splitPred (fun x => p x || decide (x = c)) (a :: rest) =
              consHead a (splitPred (fun x => p x || decide (x = c)) rest) := by
            rw [splitPred, if_neg (by simp [hpa, hac])]
          rw [hR, ← ih, hL, List.flatMap_cons]
          rw [consHead_append a _ _ (splitChar_ne_nil c f)]
    · rw [splitPred, if_pos hpa]
      rw [List.flatMap_cons]
      have hR : splitPred (fun x => p x || decide (x = c)) (a :: rest) =
          [] :: splitPred (fun x => p x || decide (x = c)) rest := by
        rw [splitPred, if_pos (by simp [hpa])]
      rw [hR, ← ih]
      simp [splitChar]

theorem splitPred_congr {p q : Char → Bool} (h : ∀ x, p x = q x) (l : List Char) :
    splitPred p l = splitPred q l := by
  rw [show p = q from funext h]

theorem foldl_split_pred (syms : List Char) :
    ∀ (p : Char → Bool) (l : List Char),
    syms.foldl (fun base c => base.flatMap (splitChar c)) (splitPred p l) =
      splitPred (fun x => p x || decide (x ∈ syms)) l := by
  induction syms with
  | nil =>
    intro p l
    simp only [List.foldl_nil]
    refine splitPred_congr (fun x => ?_) l
    simp
  | cons c rest ih =>
    intro p l
    rw [List.foldl_cons, splitPred_flatMap, ih]
    refine splitPred_congr (fun x => ?_) l
    by_cases hxc : x = c
    · simp [hxc]
    · simp [hxc, List.mem_cons]

theorem split_eq_splitPred (s : String) (syms : List Char) :
    split s syms =
      (splitPred (fun x => decide (x ∈ syms)) s.data).filterMap
        (fun b =>
          let t := pyStrip b
          if t.length > 0 then some (⟨t⟩ : String) else none) := by
  unfold split
  have h1 : (fun (base : List (List Char)) symbol =>
      base.flatMap (fun str => if symbol ∈ str then splitChar symbol str else [str])) =
      (fun (base : List (List Char)) symbol => base.flatMap (splitChar symbol)) := by
    funext base symbol
    refine congrArg _ (funext fun str => ?_)
    by_cases h : symbol ∈ str
    · rw [if_pos h]
    · rw [if_neg h, splitChar_of_not_mem _ _ h]
  rw [h1, show [s.data] = splitPred (fun _ => false) s.data from
    (splitPred_false s.data).symm, foldl_split_pred]
  exact congrArg (List.filterMap _) (splitPred_congr (fun x => by simp) s.data)

theorem dropWhile_dropWhile (p : Char → Bool) (l : List Char) :
    (l.dropWhile p).dropWhile p = l.dropWhile p := by
  induction l with
  | nil => rfl
  | cons a rest ih =>
    rw [List.dropWhile_cons]
    by_cases h : p a = true
    · rw [if_pos h]; exact ih
    · rw [if_neg h, List.dropWhile_cons, if_neg h]

theorem dropWhile_head_false (p : Char → Bool) (a : Char) (rest : List Char)
    (h : (a :: rest).dropWhile p = a :: rest) : p a = false := by
  by_contra hcon
  have hpa : p a = true := by
    cases hv : p a
    · exact absurd hv hcon
    · rfl
  rw [List.dropWhile_cons, if_pos hpa] at h
  have hlen := congrArg List.length h
  have hle := (List.dropWhile_sublist (l := rest) p).length_le
  simp only [List.length_cons] at hlen
  omega

theorem dropWhile_of_prefix (p : Char → Bool) (X tail : List Char)
    (h : (X ++ tail).dropWhile p = X ++ tail) : X.dropWhile p = X := by
  cases X with
  | nil => rfl
  | cons a x' =>
    have hpa : p a = false := dropWhile_head_false p a (x' ++ tail) (by simpa using h)
    rw [List.dropWhile_cons, if_neg (by simp [hpa])]

theorem pyStrip_idem (l : List Char) : pyStrip (pyStrip l) = pyStrip l := by
  set A := l.dropWhile Char.isWhitespace with hA
  have hDA : A.dropWhile Char.isWhitespace = A := dropWhile_dropWhile _ l
  set Y := A.reverse.dropWhile Char.isWhitespace with hY
  have hsuf : Y.IsSuffix A.reverse := List.dropWhile_suffix _
  obtain ⟨u, hu⟩ := hsuf
  have hXpre : A = Y.reverse ++ u.reverse := by
    have := congrArg List.reverse hu
    simpa [List.reverse_append] using this.symm
  have hDX : Y.reverse.dropWhile Char.isWhitespace = Y.reverse :=
    dropWhile_of_prefix _ _ _ (by rw [← hXpre]; exact hDA)
  show ((Y.reverse.dropWhile Char.isWhitespace).reverse.dropWhile
      Char.isWhitespace).reverse = Y.reverse
  rw [hDX, List.reverse_reverse,
    show Y.dropWhile Char.isWhitespace = Y from by
      rw [hY]; exact dropWhile_dropWhile _ _]

theorem pyStrip_subset (l : List Char) : pyStrip l ⊆ l := by
  intro x hx
  unfold pyStrip at hx
  rw [List.mem_reverse] at hx
  have h1 := (List.dropWhile_sublist (l := (l.dropWhile Char.isWhitespace).reverse)
    Char.isWhitespace).subset hx
  rw [List.mem_reverse] at h1
  exact (List.dropWhile_sublist Char.isWhitespace).subset h1

theorem countIn_lookupInner (inner : Inner) (tg tg' : String) (n : Nat) :
    lookupInner (bumpInnerBy inner tg n) tg' =
      if tg' = tg then some ((lookupInner inner tg').getD 0 + n)
      else lookupInner inner tg' := by
  induction inner with
  | nil =>
    by_cases h : tg' = tg
    · subst h
      simp [bumpInnerBy, lookupInner]
    · have h2 : ¬ tg = tg' := fun hEq => h hEq.symm
      simp [bumpInnerBy, lookupInner, h, h2]
  | cons p rest ih =>
    by_cases hp : p.1 = tg
    · have hb : bumpInnerBy (p :: rest) tg n = (p.1, p.2 + n) :: rest := by
        simp [bumpInnerBy, hp]
      rw [hb]
      by_cases h : tg' = tg
      · subst h
        simp [lookupInner, hp]
      · have hne : ¬ p.1 = tg' := fun hEq => h (hEq.symm.trans hp)
        simp [lookupInner, hne, h]
    · have hb : bumpInnerBy (p :: rest) tg n = p :: bumpInnerBy rest tg n := by
        simp [bumpInnerBy, hp]
      rw [hb]
      by_cases hq : p.1 = tg'
      · have h : ¬ tg' = tg := fun hEq => hp (hq.trans hEq)
        simp [lookupInner, hq, h]
      · simp only [lookupInner, if_neg hq]
        rw [ih]

theorem freqOf_bump (t : Table) (s0 tg0 s tg : String) (n : Nat) :
    freqOf (bumpTableBy t s0 tg0 n) s tg =
      if s = s0 ∧ tg = tg0 then some ((freqOf t s tg).getD 0 + n)
      else freqOf t s tg := by
  induction t with
  | nil =>
    by_cases hs : s = s0
    · subst hs
      by_cases ht : tg = tg0
      · subst ht
        simp [bumpTableBy, freqOf, lookupT, bumpInnerBy, lookupInner]
      · have hc : ¬ (s = s ∧ tg = tg0) := by simp [ht]
        have ht2 : ¬ tg0 = tg := fun hEq => ht hEq.symm
        simp [bumpTableBy, freqOf, lookupT, bumpInnerBy, lookupInner, hc, ht2, ht]
    · have hs2 : ¬ s0 = s := fun hEq => hs hEq.symm
      have hc : ¬ (s = s0 ∧ tg = tg0) := by simp [hs]
      simp [bumpTableBy, freqOf, lookupT, hs2, hc]
  | cons e rest ih =>
    by_cases he : e.1 = s0
    · have hb : bumpTableBy (e :: rest) s0 tg0 n = (e.1, bumpInnerBy e.2 tg0 n) :: rest := by
        simp [bumpTableBy, he]
      rw [hb]
      by_cases hsE : e.1 = s
      · simp only [freqOf, lookupT, if_pos hsE, Option.some_bind]
        rw [countIn_lookupInner]
        have hss : s = s0 := hsE.symm.trans he
        by_cases ht : tg = tg0
        · rw [if_pos ht, if_pos ⟨hss, ht⟩]
        · rw [if_neg ht, if_neg (by rintro ⟨h1, h2⟩; exact ht h2)]
      · have hns : ¬ s = s0 := fun hEq => hsE (he.trans hEq.symm)
        simp only [freqOf, lookupT, if_neg hsE]
        rw [if_neg (by rintro ⟨h1, h2⟩; exact hns h1)]
    · have hb : bumpTableBy (e :: rest) s0 tg0 n = e :: bumpTableBy rest s0 tg0 n := by
        simp [bumpTableBy, he]
      rw [hb]
      by_cases hsE : e.1 = s
      · have hns : ¬ s = s0 := fun hEq => he (hsE.trans hEq)
        simp only [freqOf, lookupT, if_pos hsE]
        rw [if_neg (by rintro ⟨h1, h2⟩; exact hns h1)]
      · simp only [freqOf, lookupT, if_neg hsE]
        exact ih

theorem countIn_bump (t : Table) (s0 tg0 s tg : String) (n : Nat) :
    countIn (bumpTableBy t s0 tg0 n) s tg =
      countIn t s tg + (if s = s0 ∧ tg = tg0 then n else 0) := by
  unfold countIn
  rw [freqOf_bump]
  by_cases h : s = s0 ∧ tg = tg0
  · rw [if_pos h, if_pos h]
    simp
  · rw [if_neg h, if_neg h]
    simp

theorem mkStr_eq_empty_iff (l : List Char) : (⟨l⟩ : String) = "" ↔ l = [] := by
  constructor
  · intro h
    have := congrArg String.data h
    simpa using this
  · rintro rfl
    rfl

theorem split_empty_syms (s : String) :
    split s [] = if (pyStrip s.data).length > 0 then [trimStr s] else [] := by
  unfold split trimStr
  simp only [List.foldl_nil, List.filterMap]
  by_cases h : (pyStrip s.data).length > 0
  · simp [h]
  · simp [h]

theorem countIn_addAll_no_split (sep : String) (ps : List (String × List String))
    (s tg : String) :
    ∀ t0 : Table, countIn (addAll sep [] t0 ps) s tg =
      countIn t0 s tg + ps.countP (fun p =>
        decide (p.1 = s ∧ trimStr (String.intercalate sep p.2) = tg ∧ tg ≠ "")) := by
  induction ps with
  | nil => intro t0; simp [addAll]
  | cons p rest ih =>
    intro t0
    rw [addAll, List.foldl_cons]
    rw [show List.foldl (addPair sep []) (addPair sep [] t0 p) rest =
      addAll sep [] (addPair sep [] t0 p) rest from rfl]
    rw [ih, List.countP_cons]
    have hstep : countIn (addPair sep [] t0 p) s tg = countIn t0 s tg +
        (if decide (p.1 = s ∧ trimStr (String.intercalate sep p.2) = tg ∧ tg ≠ "") = true
          then 1 else 0) := by
      unfold addPair
      rw [split_empty_syms]
      by_cases hne : (pyStrip (String.intercalate sep p.2).data).length > 0
      · rw [if_pos hne, List.foldl_cons, List.foldl_nil, countIn_bump]
        congr 1
        by_cases hs : p.1 = s
        · by_cases htg : trimStr (String.intercalate sep p.2) = tg
          · have htne : tg ≠ "" := by
              intro hEq
              rw [hEq] at htg
              unfold trimStr at htg
              rw [mkStr_eq_empty_iff] at htg
              rw [htg] at hne
              simp at hne
            have hcond : s = p.1 ∧ tg = trimStr (String.intercalate sep p.2) :=
              ⟨hs.symm, htg.symm⟩
            rw [if_pos hcond, if_pos (by simp [hs, htg, htne])]
          · rw [if_neg (by rintro ⟨h1, h2⟩; exact htg h2.symm),
              if_neg (by simp [htg])]
        · rw [if_neg (by rintro ⟨h1, h2⟩; exact hs h1.symm),
            if_neg (by simp [hs])]
      · rw [if_neg hne, List.foldl_nil]
        have hnc : ¬ (p.1 = s ∧ trimStr (String.intercalate sep p.2) = tg ∧ tg ≠ "") := by
          rintro ⟨h1, h2, h3⟩
          apply h3
          rw [← h2]
          unfold trimStr
          rw [mkStr_eq_empty_iff]
          simpa using hne
        rw [if_neg (by simp [hnc]), Nat.add_zero]
    rw [hstep]
    omega

theorem countIn_addPair_mono (sep : String) (spl : List Char) (t : Table)
    (p : String × List String) (s tg : String) :
    countIn t s tg ≤ countIn (addPair sep spl t p) s tg := by
  unfold addPair
  generalize split (String.intercalate sep p.2) spl = frs
  induction frs generalizing t with
  | nil => simp
  | cons f rest ih =>
    rw [List.foldl_cons]
    calc countIn t s tg ≤ countIn (bumpTableBy t p.1 f 1) s tg := by
          rw [countIn_bump]; omega
      _ ≤ _ := ih _

theorem countIn_addAll_mono (sep : String) (spl : List Char)
    (ps : List (String × List String)) (s tg : String) :
    ∀ t0 : Table, countIn t0 s tg ≤ countIn (addAll sep spl t0 ps) s tg := by
  induction ps with
  | nil => intro t0; simp [addAll]
  | cons p rest ih =>
    intro t0
    rw [addAll, List.foldl_cons]
    calc countIn t0 s tg ≤ countIn (addPair sep spl t0 p) s tg :=
          countIn_addPair_mono sep spl t0 p s tg
      _ ≤ _ := ih _

theorem mkStr_data (r : String) : (⟨r.data⟩ : String) = r := by
  cases r
  rfl

instance : DecidableEq (Except String String)
  | Except.ok a, Except.ok b =>
    if h : a = b then isTrue (congrArg Except.ok h)
    else isFalse (fun hc => h (Except.ok.inj hc))
  | Except.ok _, Except.error _ => isFalse (fun hc => Except.noConfusion hc)
  | Except.error _, Except.ok _ => isFalse (fun hc => Except.noConfusion hc)
  | Except.error a, Except.error b =>
    if h : a = b then isTrue (congrArg Except.error h)
    else isFalse (fun hc => h (Except.error.inj hc))

/-- Modelled from the spec (the reference form behind claim C3): §4.2 step 1
reduces each `(source, target, count)` pair independently of every other pair —
case-fold, diff, slice and trim the pair itself, with no state carried from one
pair of the same source key to the next; drop pairs with an empty trimmed core
and sum counts on collisions. -/
def reduceTablePerPair (ic : Bool) (w : Nat) (t : Table) : Table :=
  t.foldl (fun acc e =>
    e.2.foldl (fun acc p =>
      let src := lowIf ic e.1
      let tgt := lowIf ic p.1
      if src = tgt then acc
      else
        let start := preScan src.data tgt.data
        let matched := sufScan src.data tgt.data
        let src2 := trimStr (sliceStr src start matched w)
        let tgt2 := trimStr (sliceStr tgt start matched w)
        if src2 ≠ "" ∧ tgt2 ≠ "" then bumpTableBy acc src2 tgt2 p.2 else acc) acc) []

/-- Drop, inside every source entry, the targets equal to the source after
optional case folding. -/
def filterIdent (ic : Bool) (t : Table) : Table :=
  t.map (fun e => (e.1, e.2.filter (fun p => decide (lowIf ic e.1 ≠ lowIf ic p.1))))

theorem emittedRules_char (t : Table) (c : Int) (ic si : Bool) (w : Int) :
    emittedRules t c ic si w =
      (selectedSorted (select t w ic)).flatMap (fun e => valsFor c ic si e.1 e.2) := by
  unfold emittedRules
  rw [emitTable_char]

theorem salphChars_char (t : Table) (c : Int) (ic si : Bool) (w : Int) :
    salphChars t c ic si w =
      preSalph t w ++ (selectedSorted (select t w ic)).flatMap (fun e => e.1.data) := by
  unfold salphChars
  rw [emitTable_char]

theorem talphChars_char (t : Table) (c : Int) (ic si : Bool) (w : Int) :
    talphChars t c ic si w =
      preTalph t w ++ (selectedSorted (select t w ic)).flatMap (fun e => talphFor c e.2) := by
  unfold talphChars
  rw [emitTable_char]

theorem mem_selectedSorted_keys_chars (sel : Table) (ch : Char) :
    ch ∈ (selectedSorted sel).flatMap (fun e => e.1.data) ↔
      ∃ k ∈ sel.map Prod.fst, ch ∈ k.data := by
  rw [List.mem_flatMap]
  constructor
  · rintro ⟨e, he, hch⟩
    unfold selectedSorted at he
    rw [List.mem_map] at he
    obtain ⟨k, hk, rfl⟩ := he
    exact ⟨k, (List.perm_insertionSort keyLe _).mem_iff.mp hk, hch⟩
  · rintro ⟨k, hk, hch⟩
    refine ⟨(k, List.insertionSort pairLe (innerOf sel k)), ?_, hch⟩
    unfold selectedSorted
    rw [List.mem_map]
    exact ⟨k, (List.perm_insertionSort keyLe _).mem_iff.mpr hk, rfl⟩

theorem mem_selectedSorted_talph (sel : Table) (c : Int) (ch : Char) :
    ch ∈ (selectedSorted sel).flatMap (fun e => talphFor c e.2) ↔
      ∃ k ∈ sel.map Prod.fst, ∃ p ∈ innerOf sel k, (p.2 : Int) > c ∧ ch ∈ p.1.data := by
  rw [List.mem_flatMap]
  constructor
  · rintro ⟨e, he, hch⟩
    unfold selectedSorted at he
    rw [List.mem_map] at he
    obtain ⟨k, hk, rfl⟩ := he
    unfold talphFor at hch
    rw [List.mem_flatMap] at hch
    obtain ⟨p, hp, hch⟩ := hch
    have hp2 : p ∈ innerOf sel k := (List.perm_insertionSort pairLe _).mem_iff.mp hp
    by_cases hf : (p.2 : Int) > c
    · rw [if_pos hf] at hch
      exact ⟨k, (List.perm_insertionSort keyLe _).mem_iff.mp hk, p, hp2, hf, hch⟩
    · rw [if_neg hf] at hch
      simp at hch
  · rintro ⟨k, hk, p, hp, hf, hch⟩
    refine ⟨(k, List.insertionSort pairLe (innerOf sel k)), ?_, ?_⟩
    · unfold selectedSorted
      rw [List.mem_map]
      exact ⟨k, (List.perm_insertionSort keyLe _).mem_iff.mpr hk, rfl⟩
    · unfold talphFor
      rw [List.mem_flatMap]
      exact ⟨p, (List.perm_insertionSort pairLe _).mem_iff.mpr hp,
        by rw [if_pos hf]; exact hch⟩

theorem vals_singleton_le (a b : String) (f : Nat) (c : Int) (ic si : Bool)
    (h : ¬ ((f : Int) > c)) :
    (emitTable (selectedSorted [(a, [(b, f)])]) c ic si).vals = [] := by
  have hsel : selectedSorted [(a, [(b, f)])] = [(a, [(b, f)])] := by
    simp [selectedSorted, sortedKeys, innerOf, lookupT, List.insertionSort,
      List.orderedInsert]
  rw [hsel, emitTable_char]
  show [(a, [(b, f)])].flatMap (fun e => valsFor c ic si e.1 e.2) = []
  by_cases hres : hasReserved a = true <;>
    simp [valsFor, ruleFor, hres, h]

theorem reduceTable_singleton (ic : Bool) (w : Nat) (s tg : String) (f : Nat) :
    reduceTable ic w [(s, [(tg, f)])] = [] ∨
      ∃ a b, reduceTable ic w [(s, [(tg, f)])] = [(a, [(b, f)])] := by
  unfold reduceTable
  simp only [List.foldl_cons, List.foldl_nil]
  unfold reduceStep
  by_cases h1 : lowIf ic s = lowIf ic tg
  · left
    simp [h1]
  · simp only [if_neg h1]
    by_cases h2 : trimStr (sliceStr (lowIf ic s)
          (preScan (lowIf ic s).data (lowIf ic tg).data)
          (sufScan (lowIf ic s).data (lowIf ic tg).data) w) ≠ "" ∧
        trimStr (sliceStr (lowIf ic tg)
          (preScan (lowIf ic s).data (lowIf ic tg).data)
          (sufScan (lowIf ic s).data (lowIf ic tg).data) w) ≠ ""
    · right
      rw [if_pos h2]
      exact ⟨_, _, rfl⟩
    · left
      rw [if_neg h2]

theorem emittedRules_singleton_le (s tg : String) (f : Nat) (c : Int) (ic si : Bool)
    (w : Int) (hf : (f : Int) ≤ c) : emittedRules [(s, [(tg, f)])] c ic si w = [] := by
  unfold emittedRules select
  by_cases hw : 0 ≤ w
  · rw [if_pos hw]
    rcases reduceTable_singleton ic w.toNat s tg f with h | ⟨a, b, h⟩
    · rw [h]
      rfl
    · rw [h]
      exact vals_singleton_le a b f c ic si (by omega)
  · rw [if_neg hw]
    exact vals_singleton_le s tg f c ic si (by omega)

/-- Claim C1, counterexample: the pair `("a=", "b")` has count `1`, above the
cutoff `0`, and its source contains only `'='`, a reserved character the
escaper handles — yet the emitted rule list is empty: the guard at tb2fst.py
line 218 rejects every source whose escaped form contains a backslash, which
is every source containing a reserved character. -/
theorem c1_counterexample :
    freqOf [("a=", [("b", 1)])] "a=" "b" = some 1 ∧
    emittedRules [("a=", [("b", 1)])] 0 true false (-1) = [] := by
  constructor
  · decide
  · decide

/-- Claim C1, amended: a candidate rule that passes the frequency cutoff is
rejected silently if and only if, after escaping, its source contains a
backslash — which happens exactly when the original source contains any
reserved character; in particular a source containing reserved characters
that the escaper handles is dropped, not emitted with the characters
escaped. -/
theorem c1_amended :
    (∀ (t : Table) (c : Int) (ic si : Bool) (w : Int),
      emittedRules t c ic si w = (selectedSorted (select t w ic)).flatMap
        (fun e => if '\\' ∈ (escape e.1 SFST_REPLACEMENTS).data then []
          else e.2.filterMap (ruleFor c ic si e.1))) ∧
    (∀ s : String, '\\' ∈ (escape s SFST_REPLACEMENTS).data ↔ hasReserved s = true) := by
  constructor
  · intro t c ic si w
    rw [emittedRules_char]
    refine List.flatMap_congr (fun e _ => ?_)
    unfold valsFor
    by_cases h : hasReserved e.1 = true
    · rw [if_pos h, if_pos ((bslash_mem_escape_iff e.1).mpr h)]
    · rw [if_neg h, if_neg (fun hm => h ((bslash_mem_escape_iff e.1).mp hm))]
  · exact bslash_mem_escape_iff

/-- Claim C2, counterexample: in the table `{"a": {"b": 2}, "z": {"y": 1}}`
with cutoff `1` the only pair considered above the cutoff is `("a", "b", 2)`,
yet `'z'` — a character of a source all of whose pairs fall at the cutoff —
is in the source alphabet: tb2fst.py line 210 updates `salph` for every source
key, before the frequency test. -/
theorem c2_counterexample :
    emittedRules [("a", [("b", 2)]), ("z", [("y", 1)])] 1 false false (-1) =
      [("a", "b", 2)] ∧
    'z' ∈ salphChars [("a", [("b", 2)]), ("z", [("y", 1)])] 1 false false (-1) ∧
    ∀ p ∈ [(("a" : String), ("b" : String), (2 : Nat))],
      'z' ∉ p.1.data ∧ 'z' ∉ p.2.1.data := by
  refine ⟨by decide, by decide, by decide⟩

/-- Claim C2, amended: the source alphabet contains exactly the characters of
every source key of the emission table regardless of the cutoff, and the
target alphabet exactly the characters of targets whose count beats the
cutoff; when a reduction window is applied, both alphabets additionally
contain every character of the original, unreduced tokens. -/
theorem c2_amended :
    ∀ (t : Table) (c : Int) (ic si : Bool) (w : Int) (ch : Char),
    (ch ∈ salphChars t c ic si w ↔
      ((0 ≤ w ∧ ∃ e ∈ t, ch ∈ e.1.data) ∨
        ∃ k ∈ (select t w ic).map Prod.fst, ch ∈ k.data)) ∧
    (ch ∈ talphChars t c ic si w ↔
      ((0 ≤ w ∧ ∃ e ∈ t, ∃ p ∈ e.2, ch ∈ p.1.data) ∨
        ∃ k ∈ (select t w ic).map Prod.fst, ∃ p ∈ innerOf (select t w ic) k,
          (p.2 : Int) > c ∧ ch ∈ p.1.data)) := by
  intro t c ic si w ch
  constructor
  · rw [salphChars_char, List.mem_append, mem_selectedSorted_keys_chars]
    unfold preSalph
    by_cases hw : 0 ≤ w
    · rw [if_pos hw]
      simp [List.mem_flatMap, hw]
    · rw [if_neg hw]
      simp [hw]
  · rw [talphChars_char, List.mem_append, mem_selectedSorted_talph]
    unfold preTalph
    by_cases hw : 0 ≤ w
    · rw [if_pos hw]
      simp [List.mem_flatMap, hw]
    · rw [if_neg hw]
      simp [hw]

/-- Claim C3, code bug: the reference reduction of the specification treats
every pair independently, but the code reassigns the loop variable `src`
inside the inner loop (tb2fst.py lines 189, 199), so the second target of a
source key is diffed against the already-reduced core of the first.  On the
table `{"ab": {"ac": 1, "ad": 1}}` with window `0` the code produces the rule
`("b", "ad")` for the second pair where the specification's per-pair
reduction gives `("b", "d")`. -/
theorem c3_reduction_divergence :
    reduceTable false 0 [("ab", [("ac", 1), ("ad", 1)])] =
      [("b", [("c", 1), ("ad", 1)])] ∧
    reduceTablePerPair false 0 [("ab", [("ac", 1), ("ad", 1)])] =
      [("b", [("c", 1), ("d", 1)])] := by
  constructor
  · decide
  · decide

/-- Claim C4, counterexample: with `skip_identicals` set, the pair
`("a", "a")` with count `1 = freq_cutoff + 1` does not appear in the emitted
grammar — beating the cutoff is necessary but not sufficient. -/
theorem c4_counterexample :
    freqOf [("a", [("a", 1)])] "a" "a" = some 1 ∧
    emittedRules [("a", [("a", 1)])] 0 false true (-1) = [] := by
  constructor
  · decide
  · decide

/-- Claim C4, amended: the frequency cutoff is strict — every emitted rule's
count strictly exceeds the cutoff, and a pair whose count is `freq_cutoff + 1`
(or more) is emitted provided its source survives the backslash guard and the
pair is not excluded by the identical-skip. -/
theorem c4_amended :
    ∀ (t : Table) (c : Int) (ic si : Bool) (w : Int),
    (∀ r ∈ emittedRules t c ic si w, (r.2.2 : Int) > c) ∧
    (∀ e ∈ selectedSorted (select t w ic), ∀ p ∈ e.2,
      (p.2 : Int) > c → hasReserved e.1 = false →
      identCond ic si e.1 (escape p.1 SFST_REPLACEMENTS) = true →
      (e.1, escape p.1 SFST_REPLACEMENTS, p.2) ∈ emittedRules t c ic si w) := by
  intro t c ic si w
  constructor
  · intro r hr
    rw [emittedRules_char, List.mem_flatMap] at hr
    obtain ⟨e, he, hr⟩ := hr
    unfold valsFor at hr
    by_cases hres : hasReserved e.1 = true
    · rw [if_pos hres] at hr
      simp at hr
    · rw [if_neg hres, List.mem_filterMap] at hr
      obtain ⟨p, hp, hrule⟩ := hr
      unfold ruleFor at hrule
      by_cases hc : (p.2 : Int) > c ∧
          identCond ic si e.1 (escape p.1 SFST_REPLACEMENTS) = true
      · rw [if_pos hc] at hrule
        obtain rfl := Option.some.inj hrule
        exact hc.1
      · rw [if_neg hc] at hrule
        exact absurd hrule (by simp)
  · intro e he p hp hf hres hid
    rw [emittedRules_char, List.mem_flatMap]
    refine ⟨e, he, ?_⟩
    unfold valsFor
    rw [if_neg (by simp [hres]), List.mem_filterMap]
    exact ⟨p, hp, by unfold ruleFor; rw [if_pos ⟨hf, hid⟩]⟩

/-- Claim C4, witness. -/
theorem c4_amended_witness :
    ("a", escape "b" SFST_REPLACEMENTS, 2) ∈
      emittedRules [("a", [("b", 2)])] 0 false false (-1) :=
  (c4_amended [("a", [("b", 2)])] 0 false false (-1)).2 ("a", [("b", 2)]) (by decide)
    ("b", 2) (by decide) (by decide) (by decide) (by decide)

/-- Claim C5 (confirmed): `sfst` raises the fatal empty-grammar error exactly
when zero rules survive filtering; in particular a table whose only pair has
count at or below the cutoff raises the error instead of emitting a grammar
with an empty rule list. -/
theorem c5_empty_grammar :
    ∀ (source target : String) (c : Int) (ic si : Bool) (w : Int),
    (∀ t : Table, sfst source target t c ic si w =
        Except.error ("empty grammar with frequency cutoff " ++ toString c) ↔
      emittedRules t c ic si w = []) ∧
    (∀ (s tg : String) (f : Nat), (f : Int) ≤ c →
      sfst source target [(s, [(tg, f)])] c ic si w =
        Except.error ("empty grammar with frequency cutoff " ++ toString c)) := by
  intro source target c ic si w
  have hiff : ∀ t : Table, sfst source target t c ic si w =
      Except.error ("empty grammar with frequency cutoff " ++ toString c) ↔
      emittedRules t c ic si w = [] := by
    intro t
    show sfstFromParts source target (selectedSorted (select t w ic)) (preSalph t w)
        (preTalph t w) c ic si = _ ↔ _
    unfold sfstFromParts
    by_cases h : (emitTable (selectedSorted (select t w ic)) c ic si).vals = []
    · rw [if_pos h]
      exact ⟨fun _ => h, fun _ => rfl⟩
    · rw [if_neg h]
      exact ⟨fun hc => absurd hc (by simp), fun hc => absurd hc h⟩
  refine ⟨hiff, fun s tg f hf => ?_⟩
  exact (hiff [(s, [(tg, f)])]).mpr (emittedRules_singleton_le s tg f c ic si w hf)

/-- Claim C5, witness. -/
theorem c5_empty_grammar_witness :
    ((1 : Nat) : Int) ≤ 1 ∧
    sfst "a" "b" [("s", [("t", 1)])] 1 false false (-1) =
      Except.error ("empty grammar with frequency cutoff " ++ toString (1 : Int)) :=
  ⟨by decide, (c5_empty_grammar "a" "b" 1 false false (-1)).2 "s" "t" 1 (by decide)⟩

/-- Claim C6 (confirmed): the escaper equals the pointwise canonical escaping
— every reserved character of an input token is emitted with exactly one
preceding backslash (backslash itself substituted first, so no backslash
introduced by a later substitution is re-escaped) — and every escaped token is
well escaped: each reserved character in it is part of a backslash pair. -/
theorem c6_escaping :
    (∀ s : String, escape s SFST_REPLACEMENTS = canonicalEscape s) ∧
    (∀ s : String, wellEscaped (escape s SFST_REPLACEMENTS).data = true) :=
  ⟨escape_eq_canonical, wellEscaped_escape⟩

/-- Claim C7, counterexample: two tables equal as mappings (the same source
key with the same two target counts, inserted in opposite orders) compile to
different grammar text at reduction window `0`, because the reduction loop
iterates the inner dict in insertion order and threads the mutated `src`
variable across its items. -/
theorem c7_counterexample :
    TableEquiv [("ab", [("ac", 1), ("ad", 1)])] [("ab", [("ad", 1), ("ac", 1)])] ∧
    sfst "tx" "lm" [("ab", [("ac", 1), ("ad", 1)])] 0 false false 0 ≠
      sfst "tx" "lm" [("ab", [("ad", 1), ("ac", 1)])] 0 false false 0 := by
  constructor
  · decide
  · decide

/-- Claim C7, amended: with `reduction_window < 0` compilation is
deterministic in the table's contents — two tables equal as mappings
(regardless of insertion order at either level) produce byte-identical
grammar text, because source keys, target keys and alphabet characters are
each iterated in sorted order. -/
theorem c7_amended :
    ∀ (source target : String) (t1 t2 : Table) (c : Int) (ic si : Bool) (w : Int),
      w < 0 → TableEquiv t1 t2 →
      sfst source target t1 c ic si w = sfst source target t2 c ic si w := by
  intro source target t1 t2 c ic si w hw heq
  unfold sfst
  have hw2 : ¬ 0 ≤ w := by omega
  rw [show select t1 w ic = t1 from by unfold select; rw [if_neg hw2]]
  rw [show select t2 w ic = t2 from by unfold select; rw [if_neg hw2]]
  rw [show preSalph t1 w = [] from by unfold preSalph; rw [if_neg hw2]]
  rw [show preSalph t2 w = [] from by unfold preSalph; rw [if_neg hw2]]
  rw [show preTalph t1 w = [] from by unfold preTalph; rw [if_neg hw2]]
  rw [show preTalph t2 w = [] from by unfold preTalph; rw [if_neg hw2]]
  rw [selectedSorted_eq_of_equiv heq]

/-- Claim C7, witness. -/
theorem c7_amended_witness :
    ((-1 : Int) < 0 ∧ TableEquiv [("b", [("x", 1)]), ("a", [("y", 2)])]
        [("a", [("y", 2)]), ("b", [("x", 1)])]) ∧
    sfst "tx" "lm" [("b", [("x", 1)]), ("a", [("y", 2)])] 0 false false (-1) =
      sfst "tx" "lm" [("a", [("y", 2)]), ("b", [("x", 1)])] 0 false false (-1) :=
  ⟨⟨by decide, by decide⟩,
    c7_amended "tx" "lm" [("b", [("x", 1)]), ("a", [("y", 2)])]
      [("a", [("y", 2)]), ("b", [("x", 1)])] 0 false false (-1)
      (by decide) (by decide)⟩

/-- Claim C8 (confirmed): the split operation is idempotent per symbol —
splitting a fragment of its own output on the same symbol again returns just
that fragment — and for a fixed list of splitter symbols applied sequentially
the result is independent of the order of the symbols (so in particular the
final fragment set is); splitting `"run, ran"` on `[',']` yields exactly the
fragments `"run"` and `"ran"`. -/
theorem c8_split :
    (∀ (ch : Char) (s r : String), r ∈ split s [ch] → split r [ch] = [r]) ∧
    (∀ (syms1 syms2 : List Char) (s : String), List.Perm syms1 syms2 →
      split s syms1 = split s syms2) ∧
    split "run, ran" [','] = ["run", "ran"] := by
  refine ⟨?_, ?_, by decide⟩
  · intro ch s r hr
    rw [split_eq_splitPred, List.mem_filterMap] at hr
    obtain ⟨b, hb, hsome⟩ := hr
    have hEqPred : splitPred (fun x => decide (x ∈ [ch])) s.data =
        splitChar ch s.data := by
      rw [splitChar_eq_splitPred]
      exact splitPred_congr (fun x => by simp) s.data
    have hb2 : b ∈ splitChar ch s.data := hEqPred ▸ hb
    have hnc : ch ∉ b := not_mem_splitChar ch s.data b hb2
    by_cases hlen : (pyStrip b).length > 0
    · have hr2 : r = ⟨pyStrip b⟩ := by
        simp only [hlen, if_pos, gt_iff_lt] at hsome
        exact (Option.some.inj hsome).symm
      subst hr2
      have hnc2 : ch ∉ pyStrip b := fun hm => hnc (pyStrip_subset b hm)
      rw [split_eq_splitPred]
      have hpred : splitPred (fun x => decide (x ∈ [ch]))
          (⟨pyStrip b⟩ : String).data = [pyStrip b] := by
        show splitPred (fun x => decide (x ∈ [ch])) (pyStrip b) = [pyStrip b]
        rw [show splitPred (fun x => decide (x ∈ [ch])) (pyStrip b) =
            splitPred (fun x => decide (x = ch)) (pyStrip b) from
          splitPred_congr (fun x => by simp) _, ← splitChar_eq_splitPred]
        exact splitChar_of_not_mem ch _ hnc2
      rw [hpred]
      show List.filterMap _ [pyStrip b] = _
      simp [List.filterMap, pyStrip_idem b, hlen]
    · exfalso
      simp only [hlen] at hsome
      simp at hsome
  · intro syms1 syms2 s hperm
    rw [split_eq_splitPred, split_eq_splitPred]
    refine congrArg (List.filterMap _) (splitPred_congr (fun x => ?_) s.data)
    rw [decide_eq_decide]
    exact hperm.mem_iff

/-- Claim C8, witness. -/
theorem c8_split_witness :
    ("run" ∈ split "run, ran" [','] ∧ split "run" [','] = ["run"]) ∧
    (List.Perm [',', ';'] [';', ','] ∧
      split "a;b,c" [',', ';'] = split "a;b,c" [';', ',']) :=
  ⟨⟨by decide, c8_split.1 ',' "run, ran" "run" (by decide)⟩,
   ⟨by decide, c8_split.2.1 [',', ';'] [';', ','] "a;b,c" (by decide)⟩⟩

/-- Claim C9, counterexample: one observation of the aligned pair
`("s", " a ")` is recorded under the trimmed target `"a"`: the table holds
count `1` for `("s", "a")`, a pair that was observed zero times. -/
theorem c9_counterexample :
    countIn (addAll " " [] [] [("s", [" a "])]) "s" "a" = 1 ∧
    obsCount " " [("s", [" a "])] "s" "a" = 0 := by
  constructor
  · decide
  · decide

/-- Claim C9, amended: with no splitter symbols, the recorded count of every
`(source, target)` pair equals the number of observations whose source matches
and whose separator-joined, whitespace-trimmed target equals the pair's
(necessarily non-empty) target — observations whose trimmed target is empty
are dropped; and counts are only ever incremented, never decremented, for any
splitter configuration. -/
theorem c9_amended :
    (∀ (sep : String) (ps : List (String × List String)) (s tg : String),
      countIn (addAll sep [] [] ps) s tg = ps.countP (fun p =>
        decide (p.1 = s ∧ trimStr (String.intercalate sep p.2) = tg ∧ tg ≠ ""))) ∧
    (∀ (sep : String) (spl : List Char) (t0 : Table)
      (ps : List (String × List String)) (s tg : String),
      countIn t0 s tg ≤ countIn (addAll sep spl t0 ps) s tg) := by
  constructor
  · intro sep ps s tg
    rw [countIn_addAll_no_split]
    simp [countIn, freqOf, lookupT]
  · intro sep spl t0 ps s tg
    exact countIn_addAll_mono sep spl ps s tg t0

/-- Claim C10, counterexample: in reduction mode with `skip_identicals`
false, the non-identical pair `(" x", "x ")` reduces — after slicing and
whitespace trimming — to the identical cores `("x", "x")`, and the identity
rule is emitted. -/
theorem c10_counterexample :
    (" x" : String) ≠ "x " ∧
    ("x", "x", 1) ∈ emittedRules [(" x", [("x ", 1)])] 0 false false 0 := by
  constructor
  · decide
  · decide

theorem reduceTable_filterIdent_aux (ic : Bool) (w : Nat) :
    ∀ (t : Table), (∀ e ∈ t, e.2.length ≤ 1) → ∀ acc : Table,
      List.foldl (fun acc e => (e.2.foldl (reduceStep ic w) (e.1, acc)).2) acc t =
      List.foldl (fun acc e => (e.2.foldl (reduceStep ic w) (e.1, acc)).2) acc
        (filterIdent ic t)
  | [], _, acc => rfl
  | e :: rest, h, acc => by
    rw [filterIdent, List.map_cons, List.foldl_cons, List.foldl_cons]
    have hstep : (e.2.foldl (reduceStep ic w) (e.1, acc)).2 =
        (((e.2.filter (fun p => decide (lowIf ic e.1 ≠ lowIf ic p.1))).foldl
          (reduceStep ic w) (e.1, acc)).2) := by
      have hlen := h e (List.mem_cons_self e rest)
      rcases hinner : e.2 with _ | ⟨p, ptail⟩
      · rfl
      · have hpt : ptail = [] := by
          rw [hinner] at hlen
          simpa using hlen
        subst hpt
        by_cases hid : lowIf ic e.1 = lowIf ic p.1
        · rw [show [p].filter (fun q => decide (lowIf ic e.1 ≠ lowIf ic q.1)) = []
            from by simp [hid]]
          rw [List.foldl_cons, List.foldl_nil, List.foldl_nil]
          unfold reduceStep
          rw [if_pos hid]
        · rw [show [p].filter (fun q => decide (lowIf ic e.1 ≠ lowIf ic q.1)) = [p]
            from by simp [hid]]
    rw [hstep]
    have hrest : ∀ e' ∈ rest, e'.2.length ≤ 1 :=
      fun e' he' => h e' (List.mem_cons_of_mem e he')
    have := reduceTable_filterIdent_aux ic w rest hrest
      (((e.2.filter (fun p => decide (lowIf ic e.1 ≠ lowIf ic p.1))).foldl
        (reduceStep ic w) (e.1, acc)).2)
    rw [this]
    rfl

/-- Claim C10, amended: when `reduction_window ≥ 0` and every source key has
a single target (so the threaded `src` variable cannot corrupt the
comparison), every pair whose source and target are equal after optional
lower-casing is excluded from the reduced table before diffing — removing
such pairs does not change the reduced table; nevertheless an identity rule
can still appear in the emitted grammar, because whitespace trimming of the
extracted cores can map a non-identical pair onto identical cores. -/
theorem c10_amended :
    ∀ (ic : Bool) (w : Nat) (t : Table), (∀ e ∈ t, e.2.length ≤ 1) →
      reduceTable ic w t = reduceTable ic w (filterIdent ic t) := by
  intro ic w t h
  unfold reduceTable
  exact reduceTable_filterIdent_aux ic w t h []

/-- Claim C10, witness. -/
theorem c10_amended_witness :
    (∀ e ∈ [(("a" : String), [(("a" : String), (3 : Nat))]),
        ("ab", [("ac", 1)])], e.2.length ≤ 1) ∧
    reduceTable false 0 [("a", [("a", 3)]), ("ab", [("ac", 1)])] =
      reduceTable false 0 (filterIdent false [("a", [("a", 3)]), ("ab", [("ac", 1)])]) :=
  ⟨by decide, c10_amended false 0 [("a", [("a", 3)]), ("ab", [("ac", 1)])] (by decide)⟩

end Tb2fst
